import Mathlib

/-!
Verification development for the haraka-plugin-wildduck decision engine.

The repository source provides `lib/db.js` (database connection setup),
`lib/hooks.js` (MAIL / DATA-POST hook wrappers) and `lib/stream-collect.js`
(a pass-through collecting Transform stream), together with the unit tests of
the main plugin.  The main plugin module itself (address normalization, rspamd
blacklist / softlist classification, recipient resolution and rate limiting)
is not part of the provided sources — only its tests and the specification
describe it — so those components are modelled from the spec, as indicated in
the doc comment of each such definition.  All other definitions are shallow
embeddings of the JavaScript source.

Conventions: JavaScript strings that carry address data are embedded as
`List Nat` of code points; `Option` models JavaScript nullable / falsy
values; fallible asynchronous steps are embedded as `Except String`.
-/

set_option autoImplicit false

namespace Wildduck

/-! ## Rspamd verdict classification (spec §4.4)

The plugin functions `rspamdSymbols`, `checkRspamdBlacklist` and
`checkRspamdSoftlist` live in the main plugin module, which is not among the
provided sources; only their unit tests are.  They are modelled from the
spec: the symbol→score mapping is an association list (preserving the map's
iteration order), scores are rationals, and matching walks the configured
symbol list in order, skipping symbols that are absent or score exactly 0. -/

/-- Action component of the classifier result (spec §4.4). -/
inductive SpamAction where
  | accept
  | reject
  | defer
deriving DecidableEq, Repr

/-- Result of `classify` (spec §4.4): an action plus the matched symbol. -/
structure ClassifyResult where
  action : SpamAction
  matchedSymbol : Option String
deriving DecidableEq, Repr

/-- First score bound to symbol `s` in the symbol→score mapping. -/
def symbolScore (symbols : List (String × Rat)) (s : String) : Option Rat :=
  match symbols with
  | [] => none
  | (k, v) :: rest => if k = s then some v else symbolScore rest s

/-- Modelled from the spec: `rspamdSymbols` extracts the symbols carrying a
nonzero score from the rspamd result map (symbols scoring exactly 0 are
dropped). -/
def rspamdSymbols (symbols : List (String × Rat)) : List (String × Rat) :=
  symbols.filter (fun kv => kv.2 ≠ 0)

/-- Modelled from the spec: walk a configured symbol list (blacklist or
softlist) in its own iteration order and return the first listed symbol that
is present in the mapping with a nonzero score, together with its score.
This is the common core of `checkRspamdBlacklist` and `checkRspamdSoftlist`. -/
def firstListedMatch (symbols : List (String × Rat)) (listed : List String) :
    Option (String × Rat) :=
  match listed with
  | [] => none
  | s :: rest =>
    match symbolScore symbols s with
    | some v => if v ≠ 0 then some (s, v) else firstListedMatch symbols rest
    | none => firstListedMatch symbols rest

/-- Modelled from the spec: `checkRspamdBlacklist` returns the first
blacklisted symbol with nonzero score, or nothing. -/
def checkRspamdBlacklist (symbols : List (String × Rat)) (blacklist : List String) :
    Option (String × Rat) :=
  firstListedMatch symbols blacklist

/-- Modelled from the spec: `checkRspamdSoftlist` returns the first
softlisted symbol with nonzero score, or nothing. -/
def checkRspamdSoftlist (symbols : List (String × Rat)) (softlist : List String) :
    Option (String × Rat) :=
  firstListedMatch symbols softlist

/-- Modelled from the spec: `classify` checks the blacklist first (reject),
then the softlist (defer), else accepts (spec §4.4). -/
def classify (symbols : List (String × Rat)) (blacklist softlist : List String) :
    ClassifyResult :=
  match checkRspamdBlacklist symbols blacklist with
  | some (s, _) => ⟨.reject, some s⟩
  | none =>
    match checkRspamdSoftlist symbols softlist with
    | some (s, _) => ⟨.defer, some s⟩
    | none => ⟨.accept, none⟩

/-- A symbol the matcher skips: absent from the mapping or scored exactly 0. -/
def unmatchedSymbol (symbols : List (String × Rat)) (s : String) : Prop :=
  symbolScore symbols s = none ∨ symbolScore symbols s = some 0

instance (symbols : List (String × Rat)) (s : String) :
    Decidable (unmatchedSymbol symbols s) := by
  unfold unmatchedSymbol; infer_instance

/-! ## Address normalization (spec §4.2)

`normalize_address` lives in the main plugin module, which is not among the
provided sources; only its unit tests are.  It is modelled from the spec:
addresses are lists of Unicode code points; the domain (everything after the
last `@`, code point 64) is ASCII-lowercased and converted to its
ASCII-compatible encoding (labels split on `.`, code point 46, non-ASCII
labels replaced by `xn--` plus their RFC 3492 punycode encoding); the local
part keeps its case except that a case-mangled `SRS0=` / `SRS1=` marker is
forced to exact upper case. -/

/-- ASCII lowercasing of a single code point. -/
def lowerChar (c : Nat) : Nat := if 65 ≤ c ∧ c ≤ 90 then c + 32 else c

/-- ASCII lowercasing of a code point sequence. -/
def lowerStr (s : List Nat) : List Nat := s.map lowerChar

/-- Split an address at its last `@` (64) into local part and domain. -/
def splitLocalDomain : List Nat → Option (List Nat × List Nat)
  | [] => none
  | c :: rest =>
    match splitLocalDomain rest with
    | some (l, d) => some (c :: l, d)
    | none => if c = 64 then some ([], rest) else none

/-- Case-insensitive detection of the SRS envelope-rewrite marker: returns
the exact-case marker (`SRS0=` or `SRS1=`) and the remainder of the local
part. -/
def srsMark (lcl : List Nat) : Option (List Nat × List Nat) :=
  match lcl with
  | a :: b :: c :: d :: e :: rest =>
    if lowerStr [a, b, c, d, e] = [115, 114, 115, 48, 61] then
      some ([83, 82, 83, 48, 61], rest)
    else if lowerStr [a, b, c, d, e] = [115, 114, 115, 49, 61] then
      some ([83, 82, 83, 49, 61], rest)
    else none
  | _ => none

/-- Local-part normalization: force the SRS marker to exact case, keep all
other local parts untouched (spec §4.2 rules 1 and 2). -/
def normalizeLocal (lcl : List Nat) : List Nat :=
  match srsMark lcl with
  | some (mark, rest) => mark ++ rest
  | none => lcl

/-- Split a domain into labels on `.` (46). -/
def splitDot : List Nat → List (List Nat)
  | [] => [[]]
  | c :: rest =>
    if c = 46 then [] :: splitDot rest
    else
      match splitDot rest with
      | [] => [[c]]
      | l :: ls => (c :: l) :: ls

/-- Join labels with `.` (46). -/
def joinDot : List (List Nat) → List Nat
  | [] => []
  | [l] => l
  | l :: ls => l ++ 46 :: joinDot ls

/-- RFC 3492 basic digit encoding: 0–25 ↦ `a`–`z`, 26–35 ↦ `0`–`9`. -/
def punyDigit (d : Nat) : Nat := if d < 26 then d + 97 else d + 22

/-- RFC 3492 digit threshold, clamped to `[tmin, tmax] = [1, 26]`. -/
def punyThreshold (bias k : Nat) : Nat :=
  if k ≤ bias + 1 then 1 else if bias + 26 ≤ k then 26 else k - bias

/-- RFC 3492 variable-length integer: emit the delta digits for one encoded
code point.  The quotient strictly decreases, so fuel `q + 1` suffices. -/
def punyDigits (fuel q bias k : Nat) : List Nat :=
  match fuel with
  | 0 => []
  | fuel + 1 =>
    let t := punyThreshold bias k
    if q < t then [punyDigit q]
    else
      punyDigit (t + (q - t) % (36 - t)) ::
        punyDigits fuel ((q - t) / (36 - t)) bias (k + 36)

/-- Scaling loop of the RFC 3492 bias adaptation. -/
def punyAdaptLoop (fuel delta k : Nat) : Nat × Nat :=
  match fuel with
  | 0 => (delta, k)
  | fuel + 1 =>
    if 455 < delta then punyAdaptLoop fuel (delta / 35) (k + 36) else (delta, k)

/-- RFC 3492 bias adaptation. -/
def punyAdapt (delta numpoints : Nat) (firsttime : Bool) : Nat :=
  let d1 := if firsttime then delta / 700 else delta / 2
  let d2 := d1 + d1 / numpoints
  let r := punyAdaptLoop d2 d2 0
  r.2 + 36 * r.1 / (r.1 + 38)

/-- Least code point of the label that is `≥ n` (next code point to encode). -/
def minGE (label : List Nat) (n : Nat) : Option Nat :=
  label.foldl
    (fun acc c =>
      if n ≤ c then
        match acc with
        | none => some c
        | some m => some (min m c)
      else acc)
    none

/-- One sweep of the RFC 3492 encoder over the label for the current code
point `n`: returns the final `(delta, bias, handled, output)`. `b` is the
number of basic code points (used for the first-time bias adaptation). -/
def punySweep (b : Nat) : List Nat → Nat → Nat → Nat → Nat → Nat × Nat × Nat × List Nat
  | [], _, delta, bias, h => (delta, bias, h, [])
  | c :: cs, n, delta, bias, h =>
    if c < n then punySweep b cs n (delta + 1) bias h
    else if c = n then
      let r := punySweep b cs n 0 (punyAdapt delta (h + 1) (h == b)) (h + 1)
      (r.1, r.2.1, r.2.2.1, punyDigits (delta + 1) delta bias 36 ++ r.2.2.2)
    else punySweep b cs n delta bias h

/-- Outer loop of the RFC 3492 encoder: each round handles all occurrences
of the least unhandled code point, so fuel `label.length` suffices. -/
def punyOuter (fuel : Nat) (label : List Nat) (n delta bias h b : Nat) : List Nat :=
  match fuel with
  | 0 => []
  | fuel + 1 =>
    if label.length ≤ h then []
    else
      match minGE label n with
      | none => []
      | some m =>
        let r := punySweep b label m (delta + (m - n) * (h + 1)) bias h
        r.2.2.2 ++ punyOuter fuel label (m + 1) (r.1 + 1) r.2.1 r.2.2.1 b

/-- RFC 3492 punycode encoding of one label: basic code points, the `-`
delimiter when any basic code points exist, then the encoded deltas. -/
def punyEncode (label : List Nat) : List Nat :=
  let basic := label.filter (fun c => decide (c < 128))
  (basic ++ (if 0 < basic.length then [45] else [])) ++
    punyOuter label.length label 128 0 72 basic.length basic.length

/-- ASCII-compatible encoding of one label: ASCII labels are kept verbatim,
others are replaced by `xn--` (120, 110, 45, 45) plus their punycode. -/
def toAsciiLabel (label : List Nat) : List Nat :=
  if label.all (fun c => decide (c < 128)) then label
  else [120, 110, 45, 45] ++ punyEncode label

/-- Domain normalization: ASCII-lowercase, then convert each `.`-separated
label to its ASCII-compatible encoding (spec §4.2 rules 1 and 3). -/
def normalizeDomain (domain : List Nat) : List Nat :=
  joinDot ((splitDot (lowerStr domain)).map toAsciiLabel)

/-- Modelled from the spec: `normalize_address` (main plugin module, absent
from the sources) canonicalizes an address: the domain after the last `@` is
lowercased and ACE-converted, the local part is kept except that an SRS
marker is forced to exact case.  Addresses without `@` are returned
untouched, so the function is total. -/
def normalize_address (addr : List Nat) : List Nat :=
  match splitLocalDomain addr with
  | none => addr
  | some (lcl, dom) => normalizeLocal lcl ++ 64 :: normalizeDomain dom

/-- A code point unaffected by every normalization pass: ASCII,
stable under lowercasing, neither `.` nor `@`. -/
def stableChar (c : Nat) : Prop :=
  c < 128 ∧ lowerChar c = c ∧ c ≠ 46 ∧ c ≠ 64

/-- Characters emitted by the punycode delta encoder: `a`–`z` or `0`–`9`. -/
def punyOutChar (c : Nat) : Prop :=
  (97 ≤ c ∧ c ≤ 122) ∨ (48 ≤ c ∧ c ≤ 57)

/-- A code point a normalized domain may contain: ASCII, stable under
lowercasing, not `@` (label separators `.` are allowed). -/
def domainChar (c : Nat) : Prop :=
  c < 128 ∧ lowerChar c = c ∧ c ≠ 64

/-! ## RateLimiter (spec §4.1)

The rate limiter of the plugin delegates to the WildDuck `ttlcounter` Redis
script, which is an external dependency; the plugin-side `check`/`commit`
discipline is modelled from the spec: a sliding-window counter keyed by
`selector:key`, where `check` never increments and `commit` adds the
increments of a successfully delivered transaction. -/

/-- Modelled from the spec: the committed counts of the backing store within
one sliding window, keyed by selector and key. -/
abbrev CounterStore := List ((String × String) × Nat)

/-- Committed count for `selector:key` (0 when the key was never
committed). -/
def getCount (st : CounterStore) (sel key : String) : Nat :=
  match st with
  | [] => 0
  | ((s, k), n) :: rest => if s = sel ∧ k = key then n else getCount rest sel key

/-- Modelled from the spec: `RateLimiter.check` — returns whether another
delivery is allowed under `limit` and hands the store back untouched (it
must never increment).  `window` selects the sliding window and does not
change the in-window count. -/
def rateLimiterCheck (st : CounterStore) (sel key : String)
    (window limit : Nat) : Bool × CounterStore :=
  (decide (getCount st sel key < limit), st)

/-- Modelled from the spec: `RateLimiter.commit` — add `delta` to the
committed count of `selector:key`. -/
def rateLimiterCommit (st : CounterStore) (sel key : String)
    (window delta : Nat) : CounterStore :=
  match st with
  | [] => [((sel, key), delta)]
  | ((s, k), n) :: rest =>
    if s = sel ∧ k = key then ((s, k), n + delta) :: rest
    else ((s, k), n) :: rateLimiterCommit rest sel key window delta

/-- `n` consecutive `check` calls, each one threading the store it got back. -/
def checkIter (n : Nat) (st : CounterStore) (sel key : String)
    (window limit : Nat) : CounterStore :=
  match n with
  | 0 => st
  | n + 1 =>
    checkIter n (rateLimiterCheck st sel key window limit).2 sel key window limit

/-- `n` successful deliveries: `n` commits of one increment each. -/
def commitIter (n : Nat) (st : CounterStore) (sel key : String) (window : Nat) :
    CounterStore :=
  match n with
  | 0 => st
  | n + 1 => commitIter n (rateLimiterCommit st sel key window 1) sel key window

/-! ## RecipientResolver (spec §4.3)

The RCPT-phase resolver is part of the main plugin module, absent from the
provided sources; it is modelled from the spec: normalize, reject wildcards,
look the address up in the directory, enforce enabled state, quota and rate
limits, and only on success append the resolved target, its rate-limit keys
and the recipient address to the transaction state. -/

/-- Per-target policy snapshot (spec §3, ResolvedTarget). -/
structure TargetPolicy where
  quotaBytes : Nat
  maxRecipients : Nat
  maxForwards : Nat
deriving DecidableEq, Repr

/-- Target classification (spec §3, ResolvedTarget). -/
inductive TargetKind where
  | user
  | forward
  | unknown
deriving DecidableEq, Repr

/-- A resolved delivery target (spec §3). -/
structure ResolvedTarget where
  kind : TargetKind
  ownerId : Nat
  policy : TargetPolicy
  rateLimitKeys : List (String × String × Nat)
deriving DecidableEq, Repr

/-- The `targets` component of the transaction state (spec §3). -/
structure TxTargets where
  users : List (Nat × ResolvedTarget)
  forwards : List (Nat × ResolvedTarget)
  recipients : List (List Nat)
deriving DecidableEq, Repr

/-- The slice of the transaction state the resolver may mutate (spec §3). -/
structure TxState where
  targets : TxTargets
  rateKeys : List (String × String × Nat)
deriving DecidableEq, Repr

/-- Directory lookup answer (spec §4.3 step 2 and §6): user with account
state, forward, or not found. -/
inductive DirectoryResult where
  | user (ownerId : Nat) (enabled : Bool) (quotaExceeded : Bool) (policy : TargetPolicy)
  | forward (ownerId : Nat) (policy : TargetPolicy)
  | notFound
deriving DecidableEq, Repr

/-- Tri-state resolver outcome (spec §4.3 and §7). -/
inductive Outcome where
  | accept
  | permFail (reason : String)
  | tempFail (reason : String) (retryAfterSeconds : Nat)
deriving DecidableEq, Repr

/-- External collaborators of one `resolve` call: the directory and the
rate-limiter check verdicts, plus the connection context. -/
structure ResolveEnv where
  directory : List Nat → DirectoryResult
  rateAllowed : String → String → Bool
  remoteIp : String
  windowSeconds : Nat

/-- Modelled from the spec: `resolve` (spec §4.3) — strictly ordered,
short-circuiting steps; state mutations happen only in the success step. -/
def resolve (env : ResolveEnv) (addr : List Nat) (st : TxState) :
    Outcome × TxState :=
  if 42 ∈ normalize_address addr then (.permFail "WILDCARD_ADDRESS", st)
  else
    match env.directory (normalize_address addr) with
    | .notFound => (.permFail "NO_SUCH_USER", st)
    | .user ownerId enabled quotaExceeded policy =>
      if enabled = false then (.permFail "MBOX_DISABLED", st)
      else if quotaExceeded then (.permFail "MBOX_FULL", st)
      else if env.rateAllowed "user" (toString ownerId) &&
          env.rateAllowed "ipUser" (env.remoteIp ++ ":" ++ toString ownerId) then
        (.accept,
          { targets :=
              { users := st.targets.users ++
                  [(ownerId, ⟨.user, ownerId, policy,
                    [("user", toString ownerId, env.windowSeconds),
                     ("ipUser", env.remoteIp ++ ":" ++ toString ownerId,
                       env.windowSeconds)]⟩)]
                forwards := st.targets.forwards
                recipients := st.targets.recipients ++ [normalize_address addr] }
            rateKeys := st.rateKeys ++
              [("user", toString ownerId, env.windowSeconds),
               ("ipUser", env.remoteIp ++ ":" ++ toString ownerId,
                 env.windowSeconds)] })
      else (.tempFail "RATE_LIMIT" env.windowSeconds, st)
    | .forward ownerId policy =>
      if env.rateAllowed "forwardAddress" (toString ownerId) then
        (.accept,
          { targets :=
              { users := st.targets.users
                forwards := st.targets.forwards ++
                  [(ownerId, ⟨.forward, ownerId, policy,
                    [("forwardAddress", toString ownerId, env.windowSeconds)]⟩)]
                recipients := st.targets.recipients ++ [normalize_address addr] }
            rateKeys := st.rateKeys ++
              [("forwardAddress", toString ownerId, env.windowSeconds)] })
      else (.tempFail "RATE_LIMIT" env.windowSeconds, st)

/-- A directory in which no address exists (used as a concrete instance). -/
def resolveEnvNotFound : ResolveEnv :=
  ⟨fun _ => .notFound, fun _ _ => true, "192.0.2.1", 60⟩

/-- The freshly initialized transaction state slice. -/
def txStateEmpty : TxState := ⟨⟨[], [], []⟩, []⟩

/-! ## MAIL and DATA-POST hook wrappers (lib/hooks.js)

These embed the source functions `mail` and `dataPost` of `lib/hooks.js`.
The asynchronous `authHookMail` / `authHookDataPost` calls are external
(lib/auth.js); for `dataPost` their completion is an `AuthOutcome` input
(the promise either resolves or rejects). -/

/-- The transaction fields the MAIL hook touches: `txn.notes.sender` and
`txn.uuid`. -/
structure MailTxnNotes where
  sender : Option String
  uuid : String
deriving DecidableEq, Repr

/-- The GELF fields the MAIL hook logs. -/
structure GelfRecord where
  mailAction : String
  fromAddr : String
  queueId : String
deriving DecidableEq, Repr

/-- Result of one `mail` hook invocation: the transaction afterwards,
whether the hook returned `false` early, and the records logged. -/
structure MailResult where
  txn : Option MailTxnNotes
  returnedEarly : Bool
  log : List GelfRecord
deriving DecidableEq, Repr

/-- Shallow embedding of `mail` (lib/hooks.js): return `false` when there is
no transaction; otherwise assign `txn.notes.sender = from.address()`
unconditionally, log the MAIL FROM record, and run the SPF hook. -/
def mail (txn : Option MailTxnNotes) (fromAddress : String) : MailResult :=
  match txn with
  | none => ⟨none, true, []⟩
  | some t =>
    ⟨some { t with sender := some fromAddress }, false,
      [⟨"mail_from", fromAddress, t.uuid⟩]⟩

/-- Iterated MAIL hook invocations (one per `MAIL FROM` command). -/
def mailSeq (txn : Option MailTxnNotes) (addrs : List String) :
    Option MailTxnNotes :=
  match addrs with
  | [] => txn
  | a :: rest => mailSeq (mail txn a).txn rest

/-- Completion of the DATA-phase authentication promise. -/
inductive AuthOutcome where
  | ok
  | err (msg : String)
deriving DecidableEq, Repr

/-- Observable events of one `dataPost` invocation. -/
inductive DataPostEvent where
  | pipedStream
  | loggedError (msg : String)
  | calledNext
deriving DecidableEq, Repr

/-- Shallow embedding of `dataPost` (lib/hooks.js): without a transaction,
call `next()` immediately; otherwise pipe the message stream into the
authentication stream and, when the promise settles, call `next()` — after
`connection.logerror` when it rejected. -/
def dataPost (hasTxn : Bool) (auth : AuthOutcome) : List DataPostEvent :=
  if hasTxn = false then [.calledNext]
  else
    match auth with
    | .ok => [.pipedStream, .calledNext]
    | .err m => [.pipedStream, .loggedError m, .calledNext]

/-! ## StreamCollect (lib/stream-collect.js) -/

/-- The mutable fields of a `StreamCollect` transform stream. -/
structure StreamCollect where
  chunks : List (List Nat)
  chunklen : Nat
deriving DecidableEq, Repr

/-- The `StreamCollect` constructor: empty chunk list, zero length. -/
def StreamCollect.init : StreamCollect := ⟨[], 0⟩

/-- `_transform`: record the chunk, add its length, push it downstream
(the second component is what is pushed). -/
def StreamCollect.transformStep (s : StreamCollect) (chunk : List Nat) :
    StreamCollect × List (List Nat) :=
  (⟨s.chunks ++ [chunk], s.chunklen + chunk.length⟩, [chunk])

/-- Process a finite chunk sequence, collecting everything pushed
downstream in order. -/
def StreamCollect.run (s : StreamCollect) (input : List (List Nat)) :
    StreamCollect × List (List Nat) :=
  match input with
  | [] => (s, [])
  | chunk :: rest =>
    ((StreamCollect.run (s.transformStep chunk).1 rest).1,
      (s.transformStep chunk).2 ++ (StreamCollect.run (s.transformStep chunk).1 rest).2)

/-! ## Database connection setup (lib/db.js) -/

/-- A MongoDB handle: either a `MongoClient` (which may carry the database
name from its connection string) or a `Db` selected from a client. -/
inductive MongoHandle where
  | client (id : Nat) (dbName : Option String)
  | namedDb (id : Nat) (name : String)
deriving DecidableEq, Repr

/-- `h.db(name)` — select a named database. -/
def MongoHandle.dbOf : MongoHandle → String → MongoHandle
  | .client i _, n => .namedDb i n
  | .namedDb i _, n => .namedDb i n

/-- `h.s && h.s.options && h.s.options.dbName` — only a client exposes the
connection-string database name; a `Db` has no `.s`. -/
def MongoHandle.dbNameOf : MongoHandle → Option String
  | .client _ d => d
  | .namedDb _ _ => none

/-- External effects of `connect`: `MongoClient.connect` per config value
and the Redis client construction; `.error` models a thrown exception. -/
structure ConnEnv where
  mongoConnect : Option String → Except String MongoHandle
  redisInit : Except String Unit

/-- The `config.mongo` section; `none` models a falsy entry. -/
structure MongoConfig where
  url : Option String
  gridfs : Option String
  users : Option String
  sender : Option String
deriving DecidableEq, Repr

/-- `/[:\x2f]/.test(config)` — the config value holds a colon or slash and
is therefore a connection string rather than a database name. -/
def hasColonOrSlash (c : String) : Bool :=
  c.toList.any (fun ch => decide (ch = ':' ∨ ch = '/'))

/-- Shallow embedding of `getDBConnection` (lib/db.js): with an existing
main connection, a falsy config yields `false` (here `none`), a plain
database name selects it from the main connection, and a connection string
opens a new client, narrowed to its named database when it has one.
Without a main connection it simply connects. -/
def getDBConnection (env : ConnEnv) (main : Option MongoHandle)
    (config : Option String) : Except String (Option MongoHandle) :=
  match main with
  | some m =>
    match config with
    | none => .ok none
    | some c =>
      if hasColonOrSlash c = false then .ok (some (m.dbOf c))
      else
        match env.mongoConnect (some c) with
        | .error e => .error e
        | .ok db =>
          match db.dbNameOf with
          | some n => .ok (some (db.dbOf n))
          | none => .ok (some db)
  | none =>
    match env.mongoConnect config with
    | .error e => .error e
    | .ok db => .ok (some db)

/-- `response.database`: the main connection narrowed to its
connection-string database when the client carries one. -/
def respDatabase : Option MongoHandle → Option MongoHandle
  | some h =>
    match h.dbNameOf with
    | some n => some (h.dbOf n)
    | none => some h
  | none => none

/-- JavaScript `x || y` on handle values (`none` is falsy). -/
def orDefault : Option MongoHandle → Option MongoHandle → Option MongoHandle
  | some h, _ => some h
  | none, d => d

/-- The database handles passed to `MessageHandler` / `UserHandler`. -/
structure HandlerInit where
  database : Option MongoHandle
  users : Option MongoHandle
  gridfs : Option MongoHandle
deriving DecidableEq, Repr

/-- The connection object handed to the callback. -/
structure ConnResponse where
  database : Option MongoHandle
  gridfs : Option MongoHandle
  users : Option MongoHandle
  senderDb : Option MongoHandle
  messageHandler : HandlerInit
  userHandler : HandlerInit
  settingsHandlerDb : Option MongoHandle
deriving DecidableEq, Repr

/-- Assemble the response from the four connection results, with each
secondary handle falling back to `response.database` when falsy. -/
def mkResponse (dbv gdb udb sdb : Option MongoHandle) : ConnResponse :=
  { database := respDatabase dbv
    gridfs := orDefault gdb (respDatabase dbv)
    users := orDefault udb (respDatabase dbv)
    senderDb := orDefault sdb (respDatabase dbv)
    messageHandler :=
      ⟨respDatabase dbv, orDefault udb (respDatabase dbv),
        orDefault gdb (respDatabase dbv)⟩
    userHandler :=
      ⟨respDatabase dbv, orDefault udb (respDatabase dbv),
        orDefault gdb (respDatabase dbv)⟩
    settingsHandlerDb := respDatabase dbv }

/-- Shallow embedding of `module.exports.connect` (lib/db.js): main, gridfs,
users and sender connections in order, then Redis and the handlers; the
first step that throws aborts the chain with its error. -/
def connect (env : ConnEnv) (config : MongoConfig) :
    Except String ConnResponse :=
  match getDBConnection env none config.url with
  | .error e => .error e
  | .ok dbv =>
    match getDBConnection env dbv config.gridfs with
    | .error e => .error e
    | .ok gdb =>
      match getDBConnection env dbv config.users with
      | .error e => .error e
      | .ok udb =>
        match getDBConnection env dbv config.sender with
        | .error e => .error e
        | .ok sdb =>
          match env.redisInit with
          | .error e => .error e
          | .ok _ => .ok (mkResponse dbv gdb udb sdb)

/-- One callback invocation of the async IIFE in `connect`. -/
inductive CallbackCall where
  | success (r : ConnResponse)
  | failure (e : String)
deriving DecidableEq, Repr

/-- The try/catch of the async IIFE: `callback(null, response)` on success,
`callback(err)` when any awaited step throws. -/
def connectRun (env : ConnEnv) (config : MongoConfig) : List CallbackCall :=
  match connect env config with
  | .ok r => [.success r]
  | .error e => [.failure e]

/-- A concrete environment whose Mongo connection succeeds with a client
that carries a connection-string database name. -/
def connEnvExample : ConnEnv :=
  ⟨fun _ => .ok (.client 1 (some "wildduck")), .ok ()⟩

/-- The smoke-test configuration shape: secondary databases unset. -/
def mongoConfigExample : MongoConfig :=
  ⟨some "mongodb://127.0.0.1:27017/wildduck", none, none, none⟩

/-- `firstListedMatch` misses exactly when every listed symbol is skipped. -/
theorem firstListedMatch_eq_none_iff (symbols : List (String × Rat))
    (listed : List String) :
    firstListedMatch symbols listed = none ↔
      ∀ s ∈ listed, unmatchedSymbol symbols s := by
  induction listed with
  | nil => simp [firstListedMatch]
  | cons s rest ih =>
    simp only [firstListedMatch]
    cases hs : symbolScore symbols s with
    | none =>
      simp only [ih, List.mem_cons]
      constructor
      · rintro h x (rfl | hx)
        · exact Or.inl hs
        · exact h x hx
      · intro h x hx
        exact h x (Or.inr hx)
    | some v =>
      by_cases hv : v = 0
      · subst hv
        simp only [ne_eq, not_true_eq_false, if_neg, ih, List.mem_cons,
          reduceIte]
        constructor
        · rintro h x (rfl | hx)
          · exact Or.inr hs
          · exact h x hx
        · intro h x hx
          exact h x (Or.inr hx)
      · simp only [if_pos hv]
        constructor
        · intro h
          exact absurd h (by simp)
        · intro h
          rcases h s (List.mem_cons_self s rest) with h0 | h0
          · rw [hs] at h0; exact absurd h0 (by simp)
          · rw [hs] at h0
            exact absurd (Option.some_injective _ h0) hv

/-- `firstListedMatch` hits `(s, v)` exactly when the list decomposes as a
skipped prefix followed by `s`, with `s` bound to nonzero score `v`. -/
theorem firstListedMatch_eq_some_iff (symbols : List (String × Rat))
    (listed : List String) (s : String) (v : Rat) :
    firstListedMatch symbols listed = some (s, v) ↔
      ∃ pre post, listed = pre ++ s :: post ∧
        symbolScore symbols s = some v ∧ v ≠ 0 ∧
        ∀ b ∈ pre, unmatchedSymbol symbols b := by
  induction listed with
  | nil =>
    simp only [firstListedMatch]
    constructor
    · intro h; exact absurd h (by simp)
    · rintro ⟨pre, post, h, -⟩
      exact absurd h (by simp)
  | cons t rest ih =>
    simp only [firstListedMatch]
    cases ht : symbolScore symbols t with
    | none =>
      rw [ih]
      constructor
      · rintro ⟨pre, post, rfl, hsc, hv, hpre⟩
        refine ⟨t :: pre, post, rfl, hsc, hv, ?_⟩
        intro b hb
        rcases List.mem_cons.mp hb with rfl | hb'
        · exact Or.inl ht
        · exact hpre b hb'
      · rintro ⟨pre, post, hl, hsc, hv, hpre⟩
        cases pre with
        | nil =>
          simp only [List.nil_append, List.cons.injEq] at hl
          rcases hl with ⟨rfl, -⟩
          rw [ht] at hsc
          exact absurd hsc (by simp)
        | cons p ps =>
          simp only [List.cons_append, List.cons.injEq] at hl
          rcases hl with ⟨rfl, rfl⟩
          exact ⟨ps, post, rfl, hsc, hv, fun b hb => hpre b (List.mem_cons_of_mem _ hb)⟩
    | some w =>
      by_cases hw : w = 0
      · subst hw
        simp only [ne_eq, not_true_eq_false, reduceIte]
        rw [ih]
        constructor
        · rintro ⟨pre, post, rfl, hsc, hv, hpre⟩
          refine ⟨t :: pre, post, rfl, hsc, hv, ?_⟩
          intro b hb
          rcases List.mem_cons.mp hb with rfl | hb'
          · exact Or.inr ht
          · exact hpre b hb'
        · rintro ⟨pre, post, hl, hsc, hv, hpre⟩
          cases pre with
          | nil =>
            simp only [List.nil_append, List.cons.injEq] at hl
            rcases hl with ⟨rfl, -⟩
            rw [ht] at hsc
            exact absurd (Option.some_injective _ hsc).symm hv
          | cons p ps =>
            simp only [List.cons_append, List.cons.injEq] at hl
            rcases hl with ⟨rfl, rfl⟩
            exact ⟨ps, post, rfl, hsc, hv, fun b hb => hpre b (List.mem_cons_of_mem _ hb)⟩
      · simp only [if_pos hw]
        constructor
        · intro h
          simp only [Option.some.injEq, Prod.mk.injEq] at h
          obtain ⟨rfl, rfl⟩ := h
          exact ⟨[], rest, rfl, ht, hw, by simp⟩
        · rintro ⟨pre, post, hl, hsc, hv, hpre⟩
          cases pre with
          | nil =>
            simp only [List.nil_append, List.cons.injEq] at hl
            rcases hl with ⟨rfl, rfl⟩
            rw [ht] at hsc
            have hwv := Option.some_injective _ hsc
            rw [hwv]
          | cons p ps =>
            simp only [List.cons_append, List.cons.injEq] at hl
            rcases hl with ⟨rfl, rfl⟩
            rcases hpre t (List.mem_cons_self t ps) with h0 | h0
            · rw [ht] at h0; exact absurd h0 (by simp)
            · rw [ht] at h0
              exact absurd (Option.some_injective _ h0) hw

/-- A listed symbol with nonzero score forces `firstListedMatch` to hit. -/
theorem firstListedMatch_ne_none (symbols : List (String × Rat))
    (listed : List String) (s : String) (hs : s ∈ listed)
    (hv : ¬ unmatchedSymbol symbols s) :
    firstListedMatch symbols listed ≠ none := by
  intro h
  exact hv ((firstListedMatch_eq_none_iff symbols listed).mp h s hs)

/-- C1: `classify` returns `reject` with matched symbol `s` if and only if
`s` is the first blacklist entry (in blacklist iteration order) carrying a
nonzero score, every earlier blacklist entry being absent or scored exactly
0; and a mapping whose blacklisted symbols all score 0 (or are absent) never
yields `reject`. -/
theorem classify_reject_characterization (symbols : List (String × Rat))
    (blacklist softlist : List String) :
    (∀ s : String,
      ((classify symbols blacklist softlist).action = SpamAction.reject ∧
        (classify symbols blacklist softlist).matchedSymbol = some s) ↔
      ∃ pre post, blacklist = pre ++ s :: post ∧
        (∃ v, symbolScore symbols s = some v ∧ v ≠ 0) ∧
        ∀ b ∈ pre, unmatchedSymbol symbols b) ∧
    ((∀ b ∈ blacklist, unmatchedSymbol symbols b) →
      (classify symbols blacklist softlist).action ≠ SpamAction.reject) := by
  constructor
  · intro s
    constructor
    · rintro ⟨ha, hm⟩
      unfold classify checkRspamdBlacklist checkRspamdSoftlist at ha hm
      cases hb : firstListedMatch symbols blacklist with
      | none =>
        rw [hb] at ha
        cases hs : firstListedMatch symbols softlist with
        | none => rw [hs] at ha; simp at ha
        | some p => rw [hs] at ha; simp at ha
      | some p =>
        obtain ⟨t, v⟩ := p
        rw [hb] at hm
        simp only [Option.some.injEq] at hm
        subst hm
        obtain ⟨pre, post, hdec, hsc, hv, hpre⟩ :=
          (firstListedMatch_eq_some_iff symbols blacklist t v).mp hb
        exact ⟨pre, post, hdec, ⟨v, hsc, hv⟩, hpre⟩
    · rintro ⟨pre, post, hdec, ⟨v, hsc, hv⟩, hpre⟩
      have hb : firstListedMatch symbols blacklist = some (s, v) :=
        (firstListedMatch_eq_some_iff symbols blacklist s v).mpr
          ⟨pre, post, hdec, hsc, hv, hpre⟩
      unfold classify checkRspamdBlacklist
      rw [hb]
      exact ⟨rfl, rfl⟩
  · intro hall
    have hb : firstListedMatch symbols blacklist = none :=
      (firstListedMatch_eq_none_iff symbols blacklist).mpr hall
    unfold classify checkRspamdBlacklist checkRspamdSoftlist
    rw [hb]
    cases hs : firstListedMatch symbols softlist with
    | none => simp
    | some p => simp

/-- C1 witness: with symbols `BLACKLIST_SYMBOL ↦ 5` and the blacklist
`[BLACKLIST_SYMBOL]`, `classify` rejects with that symbol, and with score 0
it does not reject. -/
theorem classify_reject_characterization_witness :
    ((classify [("BLACKLIST_SYMBOL", (5 : Rat))] ["BLACKLIST_SYMBOL"] []).action
        = SpamAction.reject ∧
      (classify [("BLACKLIST_SYMBOL", (5 : Rat))] ["BLACKLIST_SYMBOL"] []).matchedSymbol
        = some "BLACKLIST_SYMBOL") ∧
    (classify [("BLACKLIST_SYMBOL", (0 : Rat))] ["BLACKLIST_SYMBOL"] []).action
        ≠ SpamAction.reject := by
  constructor
  · exact ((classify_reject_characterization
      [("BLACKLIST_SYMBOL", (5 : Rat))] ["BLACKLIST_SYMBOL"] []).1
      "BLACKLIST_SYMBOL").mpr
      ⟨[], [], rfl, ⟨(5 : Rat), by decide, by decide⟩, by simp⟩
  · exact (classify_reject_characterization
      [("BLACKLIST_SYMBOL", (0 : Rat))] ["BLACKLIST_SYMBOL"] []).2
      (by intro b hb; rcases List.mem_singleton.mp hb with rfl; right; decide)

/-- C2: a symbol present in both blacklist and softlist with nonzero score
yields `reject` (blacklist checked first), and `defer` is returned exactly
when no blacklist symbol matches while some softlist symbol has nonzero
score. -/
theorem classify_blacklist_precedence (symbols : List (String × Rat))
    (blacklist softlist : List String) :
    (∀ s : String, s ∈ blacklist → s ∈ softlist →
      (∃ v, symbolScore symbols s = some v ∧ v ≠ 0) →
      (classify symbols blacklist softlist).action = SpamAction.reject) ∧
    ((classify symbols blacklist softlist).action = SpamAction.defer ↔
      (∀ b ∈ blacklist, unmatchedSymbol symbols b) ∧
      ∃ s ∈ softlist, ∃ v, symbolScore symbols s = some v ∧ v ≠ 0) := by
  constructor
  · rintro s hbl _hsl ⟨v, hsc, hv⟩
    have hne : firstListedMatch symbols blacklist ≠ none := by
      refine firstListedMatch_ne_none symbols blacklist s hbl ?_
      intro hun
      rcases hun with h0 | h0
      · rw [hsc] at h0; exact absurd h0 (by simp)
      · rw [hsc] at h0; exact hv (Option.some_injective _ h0)
    unfold classify checkRspamdBlacklist
    cases hb : firstListedMatch symbols blacklist with
    | none => exact absurd hb hne
    | some p => rfl
  · constructor
    · intro hd
      unfold classify checkRspamdBlacklist checkRspamdSoftlist at hd
      cases hb : firstListedMatch symbols blacklist with
      | some p => rw [hb] at hd; simp at hd
      | none =>
        rw [hb] at hd
        refine ⟨(firstListedMatch_eq_none_iff symbols blacklist).mp hb, ?_⟩
        cases hs : firstListedMatch symbols softlist with
        | none => rw [hs] at hd; simp at hd
        | some p =>
          obtain ⟨t, v⟩ := p
          obtain ⟨pre, post, hdec, hsc, hv, -⟩ :=
            (firstListedMatch_eq_some_iff symbols softlist t v).mp hs
          exact ⟨t, by rw [hdec]; exact List.mem_append_right _ (List.mem_cons_self t post),
            v, hsc, hv⟩
    · rintro ⟨hall, s, hsl, v, hsc, hv⟩
      have hb : firstListedMatch symbols blacklist = none :=
        (firstListedMatch_eq_none_iff symbols blacklist).mpr hall
      have hsne : firstListedMatch symbols softlist ≠ none := by
        refine firstListedMatch_ne_none symbols softlist s hsl ?_
        intro hun
        rcases hun with h0 | h0
        · rw [hsc] at h0; exact absurd h0 (by simp)
        · rw [hsc] at h0; exact hv (Option.some_injective _ h0)
      unfold classify checkRspamdBlacklist checkRspamdSoftlist
      rw [hb]
      cases hs : firstListedMatch symbols softlist with
      | none => exact absurd hs hsne
      | some p => rfl

/-- C2 witness: symbol `BOTH` in both lists with score 2 yields `reject`,
and a softlist-only nonzero symbol yields `defer`. -/
theorem classify_blacklist_precedence_witness :
    (classify [("BOTH", (2 : Rat))] ["BOTH"] ["BOTH"]).action = SpamAction.reject ∧
    (classify [("SOFT", (1 : Rat))] ["HARD"] ["SOFT"]).action = SpamAction.defer := by
  constructor
  · exact (classify_blacklist_precedence [("BOTH", (2 : Rat))] ["BOTH"] ["BOTH"]).1
      "BOTH" (by simp) (by simp) ⟨(2 : Rat), by decide, by decide⟩
  · exact (classify_blacklist_precedence [("SOFT", (1 : Rat))] ["HARD"] ["SOFT"]).2.mpr
      ⟨by intro b hb; rcases List.mem_singleton.mp hb with rfl; left; decide,
        "SOFT", by simp, (1 : Rat), by decide, by decide⟩

theorem lowerChar_idem (c : Nat) : lowerChar (lowerChar c) = lowerChar c := by
  unfold lowerChar
  split_ifs <;> omega

theorem lowerChar_lt_128 (c : Nat) (h : c < 128) : lowerChar c < 128 := by
  unfold lowerChar
  split_ifs <;> omega

theorem lowerChar_eq_64 (c : Nat) (h : lowerChar c = 64) : c = 64 := by
  unfold lowerChar at h
  split_ifs at h <;> omega

theorem lowerChar_eq_46 (c : Nat) (h : lowerChar c = 46) : c = 46 := by
  unfold lowerChar at h
  split_ifs at h <;> omega

theorem lowerStr_id_of_stable (s : List Nat) (h : ∀ c ∈ s, lowerChar c = c) :
    lowerStr s = s := by
  unfold lowerStr
  induction s with
  | nil => rfl
  | cons c rest ih =>
    simp only [List.map_cons, List.cons.injEq]
    exact ⟨h c (List.mem_cons_self c rest),
      ih fun x hx => h x (List.mem_cons_of_mem _ hx)⟩

theorem mem_lowerStr (s : List Nat) (c : Nat) (h : c ∈ lowerStr s) :
    ∃ c0 ∈ s, c = lowerChar c0 := by
  unfold lowerStr at h
  obtain ⟨c0, hc0, rfl⟩ := List.mem_map.mp h
  exact ⟨c0, hc0, rfl⟩

theorem splitLocalDomain_eq_none_iff (s : List Nat) :
    splitLocalDomain s = none ↔ 64 ∉ s := by
  induction s with
  | nil => simp [splitLocalDomain]
  | cons c rest ih =>
    simp only [splitLocalDomain]
    cases hr : splitLocalDomain rest with
    | some p => simp only [List.mem_cons]
                constructor
                · intro h; exact absurd h (by simp)
                · intro h
                  exact absurd (ih.mpr fun hm => h (Or.inr hm)) (by simp [hr])
    | none =>
      have h64 : 64 ∉ rest := ih.mp hr
      by_cases hc : c = 64
      · subst hc; simp
      · simp only [if_neg hc, List.mem_cons, not_or]
        exact ⟨fun _ => ⟨fun h => hc h.symm, h64⟩, fun _ => trivial⟩

theorem splitLocalDomain_append (l d : List Nat) (hd : 64 ∉ d) :
    splitLocalDomain (l ++ 64 :: d) = some (l, d) := by
  induction l with
  | nil =>
    simp [splitLocalDomain, (splitLocalDomain_eq_none_iff d).mpr hd]
  | cons c rest ih =>
    simp only [List.cons_append, splitLocalDomain, List.append_eq]
    rw [ih]

theorem splitLocalDomain_domain_no64 (s l d : List Nat)
    (h : splitLocalDomain s = some (l, d)) : 64 ∉ d := by
  induction s generalizing l d with
  | nil => simp [splitLocalDomain] at h
  | cons c rest ih =>
    simp only [splitLocalDomain] at h
    cases hr : splitLocalDomain rest with
    | some p =>
      rw [hr] at h
      obtain ⟨l0, d0⟩ := p
      simp only [Option.some.injEq, Prod.mk.injEq] at h
      obtain ⟨-, rfl⟩ := h
      exact ih l0 d0 hr
    | none =>
      rw [hr] at h
      by_cases hc : c = 64
      · subst hc
        simp only [if_pos rfl, Option.some.injEq, Prod.mk.injEq] at h
        obtain ⟨-, rfl⟩ := h
        exact (splitLocalDomain_eq_none_iff rest).mp hr
      · simp [hc] at h

theorem splitDot_ne_nil (s : List Nat) : splitDot s ≠ [] := by
  cases s with
  | nil => simp [splitDot]
  | cons c rest =>
    simp only [splitDot]
    by_cases hc : c = 46
    · simp [hc]
    · simp only [hc, if_neg, reduceIte]
      cases splitDot rest <;> simp

theorem mem_splitDot (s : List Nat) (l : List Nat) (c : Nat)
    (hl : l ∈ splitDot s) (hc : c ∈ l) : c ∈ s := by
  induction s generalizing l with
  | nil =>
    simp only [splitDot, List.mem_singleton] at hl
    subst hl
    exact absurd hc (by simp)
  | cons a rest ih =>
    simp only [splitDot] at hl
    by_cases ha : a = 46
    · rw [if_pos ha] at hl
      rcases List.mem_cons.mp hl with rfl | hl'
      · exact absurd hc (by simp)
      · exact List.mem_cons_of_mem _ (ih l hl' hc)
    · rw [if_neg ha] at hl
      cases hr : splitDot rest with
      | nil => exact absurd hr (splitDot_ne_nil rest)
      | cons t ts =>
        rw [hr] at hl
        rcases List.mem_cons.mp hl with rfl | hl'
        · rcases List.mem_cons.mp hc with rfl | hc'
          · exact List.mem_cons_self _ _
          · exact List.mem_cons_of_mem _ (ih t (by rw [hr]; exact List.mem_cons_self t ts) hc')
        · exact List.mem_cons_of_mem _ (ih l (by rw [hr]; exact List.mem_cons_of_mem _ hl') hc)

theorem splitDot_no46 (s : List Nat) (l : List Nat) (hl : l ∈ splitDot s) :
    46 ∉ l := by
  induction s generalizing l with
  | nil =>
    simp only [splitDot, List.mem_singleton] at hl
    subst hl; simp
  | cons a rest ih =>
    simp only [splitDot] at hl
    by_cases ha : a = 46
    · rw [if_pos ha] at hl
      rcases List.mem_cons.mp hl with rfl | hl'
      · simp
      · exact ih l hl'
    · rw [if_neg ha] at hl
      cases hr : splitDot rest with
      | nil => exact absurd hr (splitDot_ne_nil rest)
      | cons t ts =>
        rw [hr] at hl
        rcases List.mem_cons.mp hl with rfl | hl'
        · intro hmem
          rcases List.mem_cons.mp hmem with h46 | h46
          · exact ha h46.symm
          · exact ih t (by rw [hr]; exact List.mem_cons_self t ts) h46
        · exact ih l (by rw [hr]; exact List.mem_cons_of_mem _ hl')

theorem joinDot_splitDot (s : List Nat) : joinDot (splitDot s) = s := by
  induction s with
  | nil => rfl
  | cons a rest ih =>
    simp only [splitDot]
    by_cases ha : a = 46
    · subst ha
      rw [if_pos rfl]
      cases hr : splitDot rest with
      | nil => exact absurd hr (splitDot_ne_nil rest)
      | cons t ts =>
        show joinDot ([] :: t :: ts) = 46 :: rest
        simp only [joinDot, List.nil_append]
        rw [← hr, ih]
    · rw [if_neg ha]
      cases hr : splitDot rest with
      | nil => exact absurd hr (splitDot_ne_nil rest)
      | cons t ts =>
        cases ts with
        | nil =>
          show joinDot [a :: t] = a :: rest
          simp only [joinDot]
          rw [hr] at ih
          simp only [joinDot] at ih
          rw [ih]
        | cons u us =>
          show joinDot ((a :: t) :: u :: us) = a :: rest
          simp only [joinDot, List.cons_append, List.cons.injEq, true_and]
          rw [hr] at ih
          simpa [joinDot] using ih

theorem splitDot_singleton (l : List Nat) (h : 46 ∉ l) : splitDot l = [l] := by
  induction l with
  | nil => rfl
  | cons c rest ih =>
    have hc : c ≠ 46 := fun hcc => h (hcc ▸ List.mem_cons_self c rest)
    simp only [splitDot, if_neg hc]
    rw [ih fun hm => h (List.mem_cons_of_mem _ hm)]

theorem splitDot_append_cons (l t : List Nat) (h : 46 ∉ l) :
    splitDot (l ++ 46 :: t) = l :: splitDot t := by
  induction l with
  | nil => simp [splitDot]
  | cons c rest ih =>
    have hc : c ≠ 46 := fun hcc => h (hcc ▸ List.mem_cons_self c rest)
    simp only [List.cons_append, splitDot, if_neg hc, List.append_eq]
    rw [ih fun hm => h (List.mem_cons_of_mem _ hm)]

theorem splitDot_joinDot (ls : List (List Nat)) (hne : ls ≠ [])
    (hno : ∀ l ∈ ls, 46 ∉ l) : splitDot (joinDot ls) = ls := by
  induction ls with
  | nil => exact absurd rfl hne
  | cons l rest ih =>
    cases rest with
    | nil =>
      show splitDot (joinDot [l]) = [l]
      simp only [joinDot]
      exact splitDot_singleton l (hno l (List.mem_cons_self l []))
    | cons m ms =>
      show splitDot (l ++ 46 :: joinDot (m :: ms)) = l :: m :: ms
      rw [splitDot_append_cons l _ (hno l (List.mem_cons_self _ _))]
      rw [ih (by simp) fun x hx => hno x (List.mem_cons_of_mem _ hx)]

theorem mem_joinDot (ls : List (List Nat)) (c : Nat) (h : c ∈ joinDot ls) :
    (∃ l ∈ ls, c ∈ l) ∨ c = 46 := by
  induction ls with
  | nil => exact absurd h (by simp [joinDot])
  | cons l rest ih =>
    cases rest with
    | nil =>
      simp only [joinDot] at h
      exact Or.inl ⟨l, List.mem_cons_self l [], h⟩
    | cons m ms =>
      simp only [joinDot] at h
      rcases List.mem_append.mp h with h1 | h1
      · exact Or.inl ⟨l, List.mem_cons_self _ _, h1⟩
      · rcases List.mem_cons.mp h1 with rfl | h2
        · exact Or.inr rfl
        · rcases ih h2 with ⟨l0, hl0, hc0⟩ | h46
          · exact Or.inl ⟨l0, List.mem_cons_of_mem _ hl0, hc0⟩
          · exact Or.inr h46

theorem stableChar_of_ranges (c : Nat)
    (h : (97 ≤ c ∧ c ≤ 122) ∨ (48 ≤ c ∧ c ≤ 57) ∨ c = 45) : stableChar c := by
  refine ⟨by omega, ?_, by omega, by omega⟩
  unfold lowerChar
  split_ifs <;> omega

theorem punyThreshold_bounds (bias k : Nat) :
    1 ≤ punyThreshold bias k ∧ punyThreshold bias k ≤ 26 := by
  unfold punyThreshold
  split_ifs <;> omega

theorem punyDigit_out (d : Nat) (h : d < 36) : punyOutChar (punyDigit d) := by
  unfold punyOutChar punyDigit
  split_ifs <;> omega

theorem punyDigits_out (fuel q bias k : Nat) :
    ∀ c ∈ punyDigits fuel q bias k, punyOutChar c := by
  induction fuel generalizing q k with
  | zero => intro c hc; exact absurd hc (by simp [punyDigits])
  | succ fuel ih =>
    intro c hc
    simp only [punyDigits] at hc
    obtain ⟨ht1, ht2⟩ := punyThreshold_bounds bias k
    by_cases hq : q < punyThreshold bias k
    · rw [if_pos hq] at hc
      rcases List.mem_singleton.mp hc with rfl
      exact punyDigit_out q (by omega)
    · rw [if_neg hq] at hc
      rcases List.mem_cons.mp hc with rfl | hc'
      · refine punyDigit_out _ ?_
        have hmod : (q - punyThreshold bias k) % (36 - punyThreshold bias k) <
            36 - punyThreshold bias k := Nat.mod_lt _ (by omega)
        omega
      · exact ih _ _ c hc'

theorem punySweep_out (b : Nat) (cs : List Nat) (n delta bias h : Nat) :
    ∀ c ∈ (punySweep b cs n delta bias h).2.2.2, punyOutChar c := by
  induction cs generalizing delta bias h with
  | nil => intro c hc; exact absurd hc (by simp [punySweep])
  | cons a rest ih =>
    intro c hc
    simp only [punySweep] at hc
    by_cases h1 : a < n
    · rw [if_pos h1] at hc
      exact ih _ _ _ c hc
    · rw [if_neg h1] at hc
      by_cases h2 : a = n
      · rw [if_pos h2] at hc
        rcases List.mem_append.mp hc with h3 | h3
        · exact punyDigits_out _ _ _ _ c h3
        · exact ih _ _ _ c h3
      · rw [if_neg h2] at hc
        exact ih _ _ _ c hc

theorem punyOuter_out (fuel : Nat) (label : List Nat) (n delta bias h b : Nat) :
    ∀ c ∈ punyOuter fuel label n delta bias h b, punyOutChar c := by
  induction fuel generalizing n delta bias h with
  | zero => intro c hc; exact absurd hc (by simp [punyOuter])
  | succ fuel ih =>
    intro c hc
    simp only [punyOuter] at hc
    by_cases h1 : label.length ≤ h
    · rw [if_pos h1] at hc; exact absurd hc (by simp)
    · rw [if_neg h1] at hc
      cases hm : minGE label n with
      | none => rw [hm] at hc; exact absurd hc (by simp)
      | some m =>
        rw [hm] at hc
        rcases List.mem_append.mp hc with h2 | h2
        · exact punySweep_out b label m _ bias h c h2
        · exact ih _ _ _ _ c h2

theorem punyEncode_stable (label : List Nat)
    (hb : ∀ x ∈ label, x < 128 → stableChar x) :
    ∀ c ∈ punyEncode label, stableChar c := by
  intro c hc
  unfold punyEncode at hc
  rcases List.mem_append.mp hc with h1 | h1
  · rcases List.mem_append.mp h1 with h2 | h2
    · obtain ⟨hmem, hlt⟩ := List.mem_filter.mp h2
      exact hb c hmem (by simpa using hlt)
    · by_cases h3 : 0 < (label.filter (fun c => decide (c < 128))).length
      · rw [if_pos h3] at h2
        rcases List.mem_singleton.mp h2 with rfl
        exact stableChar_of_ranges 45 (by omega)
      · rw [if_neg h3] at h2
        exact absurd h2 (by simp)
  · have := punyOuter_out label.length label 128 0 72 _ _ c h1
    exact stableChar_of_ranges c (by unfold punyOutChar at this; omega)

theorem toAsciiLabel_stable (label : List Nat)
    (hb : ∀ x ∈ label, x < 128 → stableChar x) :
    ∀ c ∈ toAsciiLabel label, stableChar c := by
  intro c hc
  unfold toAsciiLabel at hc
  by_cases hall : label.all (fun c => decide (c < 128)) = true
  · rw [if_pos hall] at hc
    exact hb c hc (by simpa using List.all_eq_true.mp hall c hc)
  · rw [if_neg hall] at hc
    rcases List.mem_append.mp hc with h1 | h1
    · have : c = 120 ∨ c = 110 ∨ c = 45 := by
        rcases List.mem_cons.mp h1 with rfl | h2
        · exact Or.inl rfl
        rcases List.mem_cons.mp h2 with rfl | h3
        · exact Or.inr (Or.inl rfl)
        rcases List.mem_cons.mp h3 with rfl | h4
        · exact Or.inr (Or.inr rfl)
        rcases List.mem_singleton.mp h4 with rfl
        · exact Or.inr (Or.inr rfl)
      exact stableChar_of_ranges c (by omega)
    · exact punyEncode_stable label hb c h1

theorem toAsciiLabel_ascii_id (label : List Nat)
    (h : ∀ x ∈ label, x < 128) : toAsciiLabel label = label := by
  unfold toAsciiLabel
  rw [if_pos (List.all_eq_true.mpr fun x hx => by simpa using h x hx)]

theorem toAsciiLabel_all_ascii (label : List Nat)
    (hb : ∀ x ∈ label, x < 128 → stableChar x) :
    ∀ c ∈ toAsciiLabel label, c < 128 :=
  fun c hc => (toAsciiLabel_stable label hb c hc).1

/-- Every label obtained from the lowercased domain only has code points
that are lowercase-stable, not `.`, and not `@` whenever they are ASCII. -/
theorem label_basic_ok (domain : List Nat) (h64 : 64 ∉ domain) :
    ∀ l ∈ splitDot (lowerStr domain), ∀ x ∈ l, x < 128 → stableChar x := by
  intro l hl x hx hlt
  obtain ⟨x0, hx0, rfl⟩ := mem_lowerStr domain x (mem_splitDot _ l x hl hx)
  refine ⟨hlt, lowerChar_idem x0, ?_, ?_⟩
  · intro h46
    exact splitDot_no46 (lowerStr domain) l hl (h46 ▸ hx)
  · intro h64'
    exact h64 (lowerChar_eq_64 x0 h64' ▸ hx0)

theorem normalizeDomain_chars (domain : List Nat) (h64 : 64 ∉ domain) :
    ∀ c ∈ normalizeDomain domain, domainChar c := by
  intro c hc
  unfold normalizeDomain at hc
  rcases mem_joinDot _ c hc with ⟨l, hl, hcl⟩ | rfl
  · obtain ⟨l0, hl0, rfl⟩ := List.mem_map.mp hl
    have := toAsciiLabel_stable l0 (label_basic_ok domain h64 l0 hl0) c hcl
    exact ⟨this.1, this.2.1, this.2.2.2⟩
  · exact ⟨by omega, by decide, by omega⟩

theorem normalizeDomain_no64 (domain : List Nat) (h64 : 64 ∉ domain) :
    64 ∉ normalizeDomain domain :=
  fun hm => (normalizeDomain_chars domain h64 64 hm).2.2 rfl

theorem normalizeDomain_idem (domain : List Nat) (h64 : 64 ∉ domain) :
    normalizeDomain (normalizeDomain domain) = normalizeDomain domain := by
  have hstab := normalizeDomain_chars domain h64
  have h1 : lowerStr (normalizeDomain domain) = normalizeDomain domain :=
    lowerStr_id_of_stable _ fun c hc => (hstab c hc).2.1
  have hne : (splitDot (lowerStr domain)).map toAsciiLabel ≠ [] := by
    intro hnil
    exact splitDot_ne_nil (lowerStr domain) (List.map_eq_nil_iff.mp hnil)
  have hno46 : ∀ l ∈ (splitDot (lowerStr domain)).map toAsciiLabel, 46 ∉ l := by
    intro l hl hmem
    obtain ⟨l0, hl0, rfl⟩ := List.mem_map.mp hl
    exact (toAsciiLabel_stable l0 (label_basic_ok domain h64 l0 hl0) 46 hmem).2.2.1 rfl
  have hsplit : splitDot (normalizeDomain domain) =
      (splitDot (lowerStr domain)).map toAsciiLabel := by
    conv_lhs => rw [show normalizeDomain domain =
      joinDot ((splitDot (lowerStr domain)).map toAsciiLabel) from rfl]
    exact splitDot_joinDot _ hne hno46
  have hmap : ((splitDot (lowerStr domain)).map toAsciiLabel).map toAsciiLabel =
      (splitDot (lowerStr domain)).map toAsciiLabel := by
    refine List.map_congr_left ?_ |>.trans (List.map_id _)
    intro l hl
    obtain ⟨l0, hl0, rfl⟩ := List.mem_map.mp hl
    exact toAsciiLabel_ascii_id _
      (toAsciiLabel_all_ascii l0 (label_basic_ok domain h64 l0 hl0))
  conv_lhs => rw [show normalizeDomain (normalizeDomain domain) =
    joinDot ((splitDot (lowerStr (normalizeDomain domain))).map toAsciiLabel) from rfl]
  rw [h1, hsplit, hmap]
  rfl

theorem srsMark_forced0 (rest : List Nat) :
    srsMark (83 :: 82 :: 83 :: 48 :: 61 :: rest) =
      some ([83, 82, 83, 48, 61], rest) := by
  simp [srsMark, lowerStr, lowerChar]

theorem srsMark_forced1 (rest : List Nat) :
    srsMark (83 :: 82 :: 83 :: 49 :: 61 :: rest) =
      some ([83, 82, 83, 49, 61], rest) := by
  simp [srsMark, lowerStr, lowerChar]

theorem srsMark_shape (lcl mark rest : List Nat)
    (h : srsMark lcl = some (mark, rest)) :
    mark = [83, 82, 83, 48, 61] ∨ mark = [83, 82, 83, 49, 61] := by
  rcases lcl with _ | ⟨a, _ | ⟨b, _ | ⟨c, _ | ⟨d, _ | ⟨e, tail⟩⟩⟩⟩⟩ <;>
    simp only [srsMark] at h
  any_goals exact Option.noConfusion h
  split_ifs at h with h1 h2
  · simp only [Option.some.injEq, Prod.mk.injEq] at h
    exact Or.inl h.1.symm
  · simp only [Option.some.injEq, Prod.mk.injEq] at h
    exact Or.inr h.1.symm

theorem normalizeLocal_idem (lcl : List Nat) :
    normalizeLocal (normalizeLocal lcl) = normalizeLocal lcl := by
  cases h : srsMark lcl with
  | none =>
    have h1 : normalizeLocal lcl = lcl := by unfold normalizeLocal; rw [h]
    rw [h1, h1]
  | some p =>
    obtain ⟨mark, rest⟩ := p
    have h1 : normalizeLocal lcl = mark ++ rest := by unfold normalizeLocal; rw [h]
    rw [h1]
    rcases srsMark_shape lcl mark rest h with rfl | rfl
    · show normalizeLocal (83 :: 82 :: 83 :: 48 :: 61 :: rest) = _
      unfold normalizeLocal
      rw [srsMark_forced0]
    · show normalizeLocal (83 :: 82 :: 83 :: 49 :: 61 :: rest) = _
      unfold normalizeLocal
      rw [srsMark_forced1]

theorem normalize_address_eq (lcl dom : List Nat) (hd : 64 ∉ dom) :
    normalize_address (lcl ++ 64 :: dom) =
      normalizeLocal lcl ++ 64 :: normalizeDomain dom := by
  simp only [normalize_address, splitLocalDomain_append lcl dom hd]

/-- C3: address normalization is idempotent; the embedding is a total Lean
function, covering the spec requirement that it not throw for any
syntactically-parseable address. -/
theorem normalize_address_idempotent (addr : List Nat) :
    normalize_address (normalize_address addr) = normalize_address addr := by
  cases h : splitLocalDomain addr with
  | none =>
    have h1 : normalize_address addr = addr := by
      simp only [normalize_address, h]
    rw [h1, h1]
  | some p =>
    obtain ⟨lcl, dom⟩ := p
    have h64 : 64 ∉ dom := splitLocalDomain_domain_no64 addr lcl dom h
    have h1 : normalize_address addr =
        normalizeLocal lcl ++ 64 :: normalizeDomain dom := by
      simp only [normalize_address, h]
    rw [h1, normalize_address_eq _ _ (normalizeDomain_no64 dom h64)]
    rw [normalizeLocal_idem, normalizeDomain_idem dom h64]

/-- C4: a local part opening with a case-mangled `SRS0=` / `SRS1=` marker is
normalized to the exact-case marker, a local part without the marker is kept
verbatim, and the domain is lowercased (lowercase-stable output, and exactly
ASCII-lowercased whenever the domain is all ASCII). -/
theorem normalize_address_srs (a b c d e : Nat) (rest domain lcl : List Nat)
    (h64 : 64 ∉ domain) :
    (lowerStr [a, b, c, d, e] = [115, 114, 115, 48, 61] →
      normalize_address ((a :: b :: c :: d :: e :: rest) ++ 64 :: domain) =
        [83, 82, 83, 48, 61] ++ rest ++ 64 :: normalizeDomain domain) ∧
    (lowerStr [a, b, c, d, e] = [115, 114, 115, 49, 61] →
      normalize_address ((a :: b :: c :: d :: e :: rest) ++ 64 :: domain) =
        [83, 82, 83, 49, 61] ++ rest ++ 64 :: normalizeDomain domain) ∧
    (srsMark lcl = none →
      normalize_address (lcl ++ 64 :: domain) = lcl ++ 64 :: normalizeDomain domain) ∧
    (∀ x ∈ normalizeDomain domain, lowerChar x = x) ∧
    ((∀ x ∈ domain, x < 128) → normalizeDomain domain = lowerStr domain) := by
  refine ⟨?_, ?_, ?_, ?_, ?_⟩
  · intro hsrs
    have hm : srsMark (a :: b :: c :: d :: e :: rest) =
        some ([83, 82, 83, 48, 61], rest) := by
      simp only [srsMark]
      rw [if_pos hsrs]
    have hl : normalizeLocal (a :: b :: c :: d :: e :: rest) =
        [83, 82, 83, 48, 61] ++ rest := by
      unfold normalizeLocal; rw [hm]
    rw [normalize_address_eq _ _ h64, hl, List.append_assoc]
  · intro hsrs
    have hm : srsMark (a :: b :: c :: d :: e :: rest) =
        some ([83, 82, 83, 49, 61], rest) := by
      simp only [srsMark]
      rw [if_neg (by rw [hsrs]; decide), if_pos hsrs]
    have hl : normalizeLocal (a :: b :: c :: d :: e :: rest) =
        [83, 82, 83, 49, 61] ++ rest := by
      unfold normalizeLocal; rw [hm]
    rw [normalize_address_eq _ _ h64, hl, List.append_assoc]
  · intro hnone
    have hl : normalizeLocal lcl = lcl := by
      unfold normalizeLocal; rw [hnone]
    rw [normalize_address_eq _ _ h64, hl]
  · exact fun x hx => (normalizeDomain_chars domain h64 x hx).2.1
  · intro hascii
    unfold normalizeDomain
    have hmap : (splitDot (lowerStr domain)).map toAsciiLabel =
        splitDot (lowerStr domain) := by
      refine List.map_congr_left ?_ |>.trans (List.map_id _)
      intro l hl
      refine toAsciiLabel_ascii_id l ?_
      intro x hx
      obtain ⟨x0, hx0, rfl⟩ := mem_lowerStr domain x (mem_splitDot _ l x hl hx)
      exact lowerChar_lt_128 x0 (hascii x0 hx0)
    rw [hmap, joinDot_splitDot]

/-- C4 witness: the case-mangled `srs0=ab@EX.com` is repaired to an address
opening with exact-case `SRS0=`. -/
theorem normalize_address_srs_witness :
    (64 ∉ ([69, 88, 46, 99, 111, 109] : List Nat)) ∧
    normalize_address ((115 :: 114 :: 115 :: 48 :: 61 :: [97, 98]) ++
        64 :: [69, 88, 46, 99, 111, 109]) =
      [83, 82, 83, 48, 61] ++ [97, 98] ++
        64 :: normalizeDomain [69, 88, 46, 99, 111, 109] :=
  ⟨by decide,
    (normalize_address_srs 115 114 115 48 61 [97, 98] [69, 88, 46, 99, 111, 109]
      [] (by decide)).1 (by decide)⟩

theorem getCount_commit (st : CounterStore) (sel key : String)
    (window delta : Nat) :
    getCount (rateLimiterCommit st sel key window delta) sel key =
      getCount st sel key + delta := by
  induction st with
  | nil => simp [rateLimiterCommit, getCount]
  | cons p rest ih =>
    obtain ⟨⟨s, k⟩, n⟩ := p
    by_cases h : s = sel ∧ k = key
    · simp [rateLimiterCommit, getCount, h]
    · simp [rateLimiterCommit, getCount, h, ih]

theorem getCount_commitIter (n : Nat) (st : CounterStore) (sel key : String)
    (window : Nat) :
    getCount (commitIter n st sel key window) sel key =
      getCount st sel key + n := by
  induction n generalizing st with
  | zero => rfl
  | succ n ih =>
    show getCount (commitIter n (rateLimiterCommit st sel key window 1) sel key window)
        sel key = getCount st sel key + (n + 1)
    rw [ih, getCount_commit]
    omega

/-- C6: `RateLimiter.check` never mutates the counter store — a single
check and any number of iterated checks return the store unchanged — while
after `limit` committed increments the next check is not allowed, and with a
fresh key `limit - 1` committed increments still leave the next check
allowed. -/
theorem rateLimiter_check_never_mutates (st : CounterStore) (sel key : String)
    (window limit n : Nat) :
    (rateLimiterCheck st sel key window limit).2 = st ∧
    checkIter n st sel key window limit = st ∧
    (rateLimiterCheck (commitIter limit st sel key window) sel key window limit).1
      = false ∧
    (getCount st sel key = 0 → 0 < limit →
      (rateLimiterCheck (commitIter (limit - 1) st sel key window) sel key window
        limit).1 = true) := by
  refine ⟨rfl, ?_, ?_, ?_⟩
  · induction n with
    | zero => rfl
    | succ n ih => exact ih
  · simp only [rateLimiterCheck, getCount_commitIter]
    simp
  · intro h0 hpos
    simp only [rateLimiterCheck, getCount_commitIter, h0]
    simp
    omega

/-- C6 witness: with an empty store, committing once out of a limit of two
still allows a check, committing twice makes the next check not allowed, and
checks leave the store empty. -/
theorem rateLimiter_check_never_mutates_witness :
    getCount ([] : CounterStore) "user" "42" = 0 ∧ 0 < 2 ∧
    checkIter 3 ([] : CounterStore) "user" "42" 60 2 = [] ∧
    (rateLimiterCheck (commitIter 1 ([] : CounterStore) "user" "42" 60)
      "user" "42" 60 2).1 = true ∧
    (rateLimiterCheck (commitIter 2 ([] : CounterStore) "user" "42" 60)
      "user" "42" 60 2).1 = false :=
  ⟨rfl, by decide,
    (rateLimiter_check_never_mutates [] "user" "42" 60 2 3).2.1,
    (rateLimiter_check_never_mutates [] "user" "42" 60 2 3).2.2.2 rfl (by decide),
    (rateLimiter_check_never_mutates [] "user" "42" 60 2 3).2.2.1⟩

theorem resolve_accept_or_frame (env : ResolveEnv) (addr : List Nat)
    (st : TxState) :
    (resolve env addr st).1 = Outcome.accept ∨ (resolve env addr st).2 = st := by
  have key : ∀ out st2, resolve env addr st = (out, st2) →
      out = Outcome.accept ∨ st2 = st := by
    intro out st2 h
    unfold resolve at h
    split at h
    · injection h with e1 e2; right; exact e2.symm
    · split at h
      · injection h with e1 e2; right; exact e2.symm
      · split_ifs at h with h1 h2 h3
        · injection h with e1 e2; right; exact e2.symm
        · injection h with e1 e2; right; exact e2.symm
        · injection h with e1 e2; left; exact e1.symm
        · injection h with e1 e2; right; exact e2.symm
      · split_ifs at h with h1
        · injection h with e1 e2; left; exact e1.symm
        · injection h with e1 e2; right; exact e2.symm
  cases hp : resolve env addr st with
  | mk out st2 => exact key out st2 hp

/-- C5: a `resolve` call that returns a failure outcome (permanent or
temporary) leaves the transaction state unchanged: users, forwards,
recipients and the pending rate-key sequence are untouched. -/
theorem resolve_atomic (env : ResolveEnv) (addr : List Nat) (st : TxState)
    (r : String) (w : Nat)
    (h : (resolve env addr st).1 = Outcome.permFail r ∨
         (resolve env addr st).1 = Outcome.tempFail r w) :
    (resolve env addr st).2.targets.users = st.targets.users ∧
    (resolve env addr st).2.targets.forwards = st.targets.forwards ∧
    (resolve env addr st).2.targets.recipients = st.targets.recipients ∧
    (resolve env addr st).2.rateKeys = st.rateKeys := by
  have hne : (resolve env addr st).1 ≠ Outcome.accept := by
    rcases h with h | h <;> rw [h] <;> intro hc <;> exact Outcome.noConfusion hc
  rcases resolve_accept_or_frame env addr st with hacc | hfr
  · exact absurd hacc hne
  · rw [hfr]
    exact ⟨rfl, rfl, rfl, rfl⟩

/-- C5 witness: resolving an unknown address fails permanently with
`NO_SUCH_USER` and leaves the empty transaction state untouched. -/
theorem resolve_atomic_witness :
    (resolve resolveEnvNotFound [97] txStateEmpty).1 =
      Outcome.permFail "NO_SUCH_USER" ∧
    (resolve resolveEnvNotFound [97] txStateEmpty).2.targets.users =
      txStateEmpty.targets.users ∧
    (resolve resolveEnvNotFound [97] txStateEmpty).2.targets.forwards =
      txStateEmpty.targets.forwards ∧
    (resolve resolveEnvNotFound [97] txStateEmpty).2.targets.recipients =
      txStateEmpty.targets.recipients ∧
    (resolve resolveEnvNotFound [97] txStateEmpty).2.rateKeys =
      txStateEmpty.rateKeys :=
  ⟨rfl, resolve_atomic resolveEnvNotFound [97] txStateEmpty "NO_SUCH_USER" 0
    (Or.inl rfl)⟩

/-- C7 counterexample: with the sender note already assigned to
`existing@example.com`, a repeated MAIL hook invocation with
`sender@example.com` changes the stored sender — so the sender is not set
once. This is the behavior the hooks unit test asserts
(`should handle existing sender in notes`). -/
theorem mail_sender_not_set_once :
    (mail (mail (some ⟨none, "test-uuid-123"⟩) "existing@example.com").txn
        "sender@example.com").txn =
      some ⟨some "sender@example.com", "test-uuid-123"⟩ ∧
    some "sender@example.com" ≠ (some "existing@example.com" : Option String) :=
  ⟨rfl, by decide⟩

/-- C7 amended: `mail` assigns `txn.notes.sender` on every invocation, so
after any sequence of MAIL hook invocations the sender note equals the
envelope address of the latest one (and the uuid is untouched); with no
transaction the hook returns early and changes nothing. -/
theorem mail_sender_latest (t : MailTxnNotes) (addrs : List String) (a : String) :
    mailSeq (some t) (addrs ++ [a]) = some ⟨some a, t.uuid⟩ ∧
    (mail (some t) a).txn = some { t with sender := some a } ∧
    (mail none a).txn = none ∧ (mail none a).returnedEarly = true := by
  refine ⟨?_, rfl, rfl, rfl⟩
  induction addrs generalizing t with
  | nil => rfl
  | cons b rest ih =>
    show mailSeq (some { t with sender := some b }) (rest ++ [a]) = _
    exact ih { t with sender := some b }

/-- C8: `dataPost` calls its continuation exactly once on every input —
immediately when there is no transaction, after the authentication stage
otherwise, and when the authentication promise rejects the error is logged
and the continuation is still called. -/
theorem dataPost_next_exactly_once (hasTxn : Bool) (auth : AuthOutcome) :
    (dataPost hasTxn auth).count DataPostEvent.calledNext = 1 ∧
    (hasTxn = false → dataPost hasTxn auth = [DataPostEvent.calledNext]) ∧
    (∀ m, hasTxn = true → auth = AuthOutcome.err m →
      dataPost hasTxn auth =
        [DataPostEvent.pipedStream, DataPostEvent.loggedError m,
          DataPostEvent.calledNext]) ∧
    (hasTxn = true → auth = AuthOutcome.ok →
      dataPost hasTxn auth = [DataPostEvent.pipedStream, DataPostEvent.calledNext]) := by
  cases hasTxn with
  | false =>
    cases auth with
    | ok =>
      exact ⟨rfl, fun _ => rfl, fun m2 h => absurd h (by decide),
        fun h => absurd h (by decide)⟩
    | err m =>
      exact ⟨rfl, fun _ => rfl, fun m2 h _ => absurd h (by decide),
        fun h => absurd h (by decide)⟩
  | true =>
    cases auth with
    | ok =>
      exact ⟨rfl, fun h => absurd h (by decide),
        fun m2 _ he => absurd he (by simp), fun _ _ => rfl⟩
    | err m =>
      exact ⟨rfl, fun h => absurd h (by decide),
        fun m2 _ he => by cases he; rfl, fun _ he => absurd he (by simp)⟩

/-- C8 witness: with a transaction and a rejecting authentication promise,
the trace is pipe, log, next — and next is called exactly once. -/
theorem dataPost_next_exactly_once_witness :
    (dataPost true (AuthOutcome.err "boom")).count DataPostEvent.calledNext = 1 ∧
    dataPost true (AuthOutcome.err "boom") =
      [DataPostEvent.pipedStream, DataPostEvent.loggedError "boom",
        DataPostEvent.calledNext] :=
  ⟨(dataPost_next_exactly_once true (AuthOutcome.err "boom")).1,
    (dataPost_next_exactly_once true (AuthOutcome.err "boom")).2.2.1 "boom" rfl rfl⟩

theorem streamCollect_run_spec (s : StreamCollect) (input : List (List Nat)) :
    (StreamCollect.run s input).2 = input ∧
    (StreamCollect.run s input).1.chunks = s.chunks ++ input ∧
    (StreamCollect.run s input).1.chunklen =
      s.chunklen + (input.map List.length).sum := by
  induction input generalizing s with
  | nil => exact ⟨rfl, (List.append_nil s.chunks).symm, by simp [StreamCollect.run]⟩
  | cons chunk rest ih =>
    obtain ⟨h1, h2, h3⟩ := ih (s.transformStep chunk).1
    refine ⟨?_, ?_, ?_⟩
    · show (s.transformStep chunk).2 ++
        (StreamCollect.run (s.transformStep chunk).1 rest).2 = chunk :: rest
      rw [h1]; rfl
    · show (StreamCollect.run (s.transformStep chunk).1 rest).1.chunks = _
      rw [h2]
      show (s.chunks ++ [chunk]) ++ rest = s.chunks ++ chunk :: rest
      simp
    · show (StreamCollect.run (s.transformStep chunk).1 rest).1.chunklen = _
      rw [h3]
      show s.chunklen + chunk.length + (rest.map List.length).sum = _
      simp [List.sum_cons]
      omega

/-- C9: `StreamCollect` is an order-preserving pass-through buffer: the
emitted chunk sequence equals the input, afterwards `chunks` holds exactly
the input chunks in order and `chunklen` is the sum of their lengths; the
constructor starts empty and every `_transform` step preserves the length
invariant. -/
theorem streamCollect_pass_through (input : List (List Nat)) :
    (StreamCollect.run StreamCollect.init input).2 = input ∧
    (StreamCollect.run StreamCollect.init input).1.chunks = input ∧
    (StreamCollect.run StreamCollect.init input).1.chunklen =
      (input.map List.length).sum ∧
    StreamCollect.init.chunks = [] ∧ StreamCollect.init.chunklen = 0 ∧
    (∀ (s : StreamCollect) (chunk : List Nat),
      s.chunklen = (s.chunks.map List.length).sum →
      (s.transformStep chunk).1.chunklen =
        ((s.transformStep chunk).1.chunks.map List.length).sum) := by
  obtain ⟨h1, h2, h3⟩ := streamCollect_run_spec StreamCollect.init input
  refine ⟨h1, h2, by simpa [StreamCollect.init] using h3, rfl, rfl, ?_⟩
  intro s chunk hinv
  show s.chunklen + chunk.length = ((s.chunks ++ [chunk]).map List.length).sum
  rw [hinv]
  simp

/-- C9 witness: the step invariant at a concrete state, plus the run on the
test chunk sequence (`Hello `, `World`, `!` as byte lists). -/
theorem streamCollect_pass_through_witness :
    ((⟨[[72, 105]], 2⟩ : StreamCollect).chunklen =
      (((⟨[[72, 105]], 2⟩ : StreamCollect)).chunks.map List.length).sum) ∧
    ((⟨[[72, 105]], 2⟩ : StreamCollect).transformStep [33]).1.chunklen =
      ((((⟨[[72, 105]], 2⟩ : StreamCollect).transformStep [33]).1.chunks.map
        List.length).sum) ∧
    (StreamCollect.run StreamCollect.init [[72], [105, 33]]).2 = [[72], [105, 33]] :=
  ⟨by decide,
    (streamCollect_pass_through [[72], [105, 33]]).2.2.2.2.2 ⟨[[72, 105]], 2⟩ [33]
      (by decide),
    (streamCollect_pass_through [[72], [105, 33]]).1⟩

theorem getDBConnection_main_none (env : ConnEnv) (cfg : Option String)
    (dbv : Option MongoHandle)
    (h : getDBConnection env none cfg = Except.ok dbv) :
    ∃ m, dbv = some m := by
  unfold getDBConnection at h
  cases hc : env.mongoConnect cfg with
  | error e => rw [hc] at h; exact absurd h (by simp)
  | ok db =>
    rw [hc] at h
    injection h with h1
    exact ⟨db, h1.symm⟩

theorem connect_ok_shape (env : ConnEnv) (config : MongoConfig)
    (r : ConnResponse) (h : connect env config = Except.ok r) :
    ∃ m gdb udb sdb,
      getDBConnection env none config.url = Except.ok (some m) ∧
      getDBConnection env (some m) config.gridfs = Except.ok gdb ∧
      getDBConnection env (some m) config.users = Except.ok udb ∧
      getDBConnection env (some m) config.sender = Except.ok sdb ∧
      r = mkResponse (some m) gdb udb sdb := by
  unfold connect at h
  cases hu : getDBConnection env none config.url with
  | error e => rw [hu] at h; exact absurd h (by simp)
  | ok dbv =>
    obtain ⟨m, rfl⟩ := getDBConnection_main_none env config.url dbv hu
    simp only [hu] at h
    cases hg : getDBConnection env (some m) config.gridfs with
    | error e => rw [hg] at h; exact absurd h (by simp)
    | ok gdb =>
      simp only [hg] at h
      cases hus : getDBConnection env (some m) config.users with
      | error e => rw [hus] at h; exact absurd h (by simp)
      | ok udb =>
        simp only [hus] at h
        cases hs : getDBConnection env (some m) config.sender with
        | error e => rw [hs] at h; exact absurd h (by simp)
        | ok sdb =>
          simp only [hs] at h
          cases hr : env.redisInit with
          | error e => rw [hr] at h; exact absurd h (by simp)
          | ok u =>
            simp only [hr] at h
            injection h with h1
            exact ⟨m, gdb, udb, sdb, rfl, hg, hus, hs, h1.symm⟩

/-- C10: an unset secondary mongo config makes `getDBConnection` return
`false`, and a successful `connect` then hands back the main database for
the corresponding `gridfs` / `users` / `senderDb` handle; the callback is
invoked exactly once — with the response on success and with the error when
a step throws. -/
theorem connect_db_fallbacks (env : ConnEnv) (config : MongoConfig) :
    (∀ m, getDBConnection env (some m) none = Except.ok none) ∧
    (∀ r, connect env config = Except.ok r →
      (config.gridfs = none → r.gridfs = r.database) ∧
      (config.users = none → r.users = r.database) ∧
      (config.sender = none → r.senderDb = r.database)) ∧
    (connectRun env config).length = 1 ∧
    (∀ r, connect env config = Except.ok r →
      connectRun env config = [CallbackCall.success r]) ∧
    (∀ e, connect env config = Except.error e →
      connectRun env config = [CallbackCall.failure e]) := by
  refine ⟨fun m => rfl, ?_, ?_, ?_, ?_⟩
  · intro r hr
    obtain ⟨m, gdb, udb, sdb, hu, hg, hus, hs, rfl⟩ :=
      connect_ok_shape env config r hr
    refine ⟨?_, ?_, ?_⟩
    · intro hnone
      rw [hnone] at hg
      injection hg with h1
      rw [← h1]
      rfl
    · intro hnone
      rw [hnone] at hus
      injection hus with h1
      rw [← h1]
      rfl
    · intro hnone
      rw [hnone] at hs
      injection hs with h1
      rw [← h1]
      rfl
  · unfold connectRun
    cases connect env config <;> rfl
  · intro r hr
    unfold connectRun
    rw [hr]
  · intro e he
    unfold connectRun
    rw [he]

/-- C10 witness: with both secondary configs unset and a client carrying a
connection-string database name, the response reuses the main database for
gridfs, users and sender, and the callback list is the single success. -/
theorem connect_db_fallbacks_witness :
    connect connEnvExample mongoConfigExample =
      Except.ok (mkResponse (some (MongoHandle.client 1 (some "wildduck")))
        none none none) ∧
    (mkResponse (some (MongoHandle.client 1 (some "wildduck"))) none none
      none).gridfs =
      (mkResponse (some (MongoHandle.client 1 (some "wildduck"))) none none
        none).database ∧
    (mkResponse (some (MongoHandle.client 1 (some "wildduck"))) none none
      none).users =
      (mkResponse (some (MongoHandle.client 1 (some "wildduck"))) none none
        none).database ∧
    (mkResponse (some (MongoHandle.client 1 (some "wildduck"))) none none
      none).senderDb =
      (mkResponse (some (MongoHandle.client 1 (some "wildduck"))) none none
        none).database ∧
    (connectRun connEnvExample mongoConfigExample).length = 1 := by
  have h := connect_db_fallbacks connEnvExample mongoConfigExample
  have hok : connect connEnvExample mongoConfigExample =
      Except.ok (mkResponse (some (MongoHandle.client 1 (some "wildduck")))
        none none none) := rfl
  have hf := h.2.1 _ hok
  exact ⟨hok, hf.1 rfl, hf.2.1 rfl, hf.2.2 rfl, h.2.2.1⟩

end Wildduck
